import Mathlib

/-!
Verification of the BGP Extended Communities attribute subsystem
(`bgpd/bgp_ecommunity.h` and its specified implementation).

Bytes are modelled as `Nat` with explicit `% 256` masking where the C code
masks with `& 0xff`.  An extended-community value is a list of 8 bytes; an
attribute's value array is a list of such values (its `size` field is the
list length, and the raw byte length is `8 * size`).
-/

namespace Ecommunity

/-- High-order octet of the Extended Communities type field (`ECOMMUNITY_ENCODE_AS`). -/
def ECOMMUNITY_ENCODE_AS : Nat := 0x00

/-- High-order octet of the Extended Communities type field (`ECOMMUNITY_ENCODE_IP`). -/
def ECOMMUNITY_ENCODE_IP : Nat := 0x01

/-- High-order octet of the Extended Communities type field (`ECOMMUNITY_ENCODE_AS4`). -/
def ECOMMUNITY_ENCODE_AS4 : Nat := 0x02

/-- Low-order octet of the Extended Communities type field (`ECOMMUNITY_ROUTE_TARGET`). -/
def ECOMMUNITY_ROUTE_TARGET : Nat := 0x02

/-- Low-order octet of the Extended Communities type field (`ECOMMUNITY_SITE_ORIGIN`). -/
def ECOMMUNITY_SITE_ORIGIN : Nat := 0x03

/-- Extended communities attribute string format `ECOMMUNITY_FORMAT_ROUTE_MAP`. -/
def ECOMMUNITY_FORMAT_ROUTE_MAP : Nat := 0

/-- Extended communities attribute string format `ECOMMUNITY_FORMAT_COMMUNITY_LIST`. -/
def ECOMMUNITY_FORMAT_COMMUNITY_LIST : Nat := 1

/-- Extended communities attribute string format `ECOMMUNITY_FORMAT_DISPLAY`. -/
def ECOMMUNITY_FORMAT_DISPLAY : Nat := 2

/-- `ECOMMUNITY_SIZE`: an extended-community value is eight octets long. -/
def ECOMMUNITY_SIZE : Nat := 8

/-- `encode_route_target_as` from `bgp_ecommunity.h`: encodes a BGP route
target in AS:nn form.  Byte 0 is the AS encoding type, byte 1 the
Route-Target sub-type, bytes 2-3 hold `(as >> 8) & 0xff` and `as & 0xff`
(big-endian low 16 bits of the AS number), and bytes 4-7 hold the
discriminator `val` big-endian (`(val >> k) & 0xff` for k = 24,16,8,0). -/
def encode_route_target_as (as val : Nat) : List Nat :=
  [ECOMMUNITY_ENCODE_AS, ECOMMUNITY_ROUTE_TARGET,
   as / 256 % 256, as % 256,
   val / 16777216 % 256, val / 65536 % 256, val / 256 % 256, val % 256]

/-- `encode_route_target_ip` from `bgp_ecommunity.h`: encodes a BGP route
target in IP:nn form.  The `struct in_addr` argument is modelled by its four
memory bytes `ip0..ip3` (the address octets in network order), which the C
code copies verbatim with `memcpy` into bytes 2-5; bytes 6-7 hold the
16-bit discriminator big-endian. -/
def encode_route_target_ip (ip0 ip1 ip2 ip3 val : Nat) : List Nat :=
  [ECOMMUNITY_ENCODE_IP, ECOMMUNITY_ROUTE_TARGET,
   ip0, ip1, ip2, ip3,
   val / 256 % 256, val % 256]

/-- `encode_route_target_as4` from `bgp_ecommunity.h`: encodes a BGP route
target in AS4:nn form.  Byte 0 is the AS4 encoding type, byte 1 the
Route-Target sub-type, bytes 2-5 hold the 32-bit AS number big-endian
(`(as >> k) & 0xff` for k = 24,16,8,0), and bytes 6-7 the 16-bit
discriminator big-endian. -/
def encode_route_target_as4 (as val : Nat) : List Nat :=
  [ECOMMUNITY_ENCODE_AS4, ECOMMUNITY_ROUTE_TARGET,
   as / 16777216 % 256, as / 65536 % 256, as / 256 % 256, as % 256,
   val / 256 % 256, val % 256]

/-- Decoder for the AS4:nn form: recovers the AS number from bytes 2-5
(big-endian) and the discriminator from bytes 6-7 (big-endian).  Stated
directly from the wire layout in the header's comments and `encode_route_target_as4`. -/
def decode_route_target_as4 : List Nat → Nat × Nat
  | [_, _, b2, b3, b4, b5, b6, b7] =>
      (((b2 * 256 + b3) * 256 + b4) * 256 + b5, b6 * 256 + b7)
  | _ => (0, 0)

/-- Splits a byte buffer into consecutive 8-byte extended-community values,
in wire order; a trailing fragment shorter than 8 bytes is dropped (the
parser never calls this on such a buffer). -/
def chunk8 : List Nat → List (List Nat)
  | b0 :: b1 :: b2 :: b3 :: b4 :: b5 :: b6 :: b7 :: rest =>
      [b0, b1, b2, b3, b4, b5, b6, b7] :: chunk8 rest
  | _ => []

/-- Modelled from the spec: `ecommunity_parse` (declared in
`bgp_ecommunity.h`, body not in the available sources).  Fails with a length
error when the raw byte length is not a multiple of 8; otherwise builds an
attribute of `size = len / 8` values in wire order. -/
def ecommunity_parse (bytes : List Nat) : Option (List (List Nat)) :=
  if bytes.length % 8 = 0 then some (chunk8 bytes) else none

/-- Modelled from the spec: the value ordering used by `ecommunity_cmp` and
the canonicalizer (bodies not in the available sources) — unsigned byte-wise
lexicographic comparison over the full 8-octet value, i.e. strict
lexicographic order on the byte lists. -/
def val_lt (a b : List Nat) : Bool := decide (List.Lex (· < ·) a b)

/-- An attribute is canonical when its value sequence is strictly increasing
under the byte-wise comparator (sorted with no duplicate entries). -/
def IsCanonical (l : List (List Nat)) : Prop :=
  List.Chain' (fun a b => val_lt a b = true) l

/-- Removes adjacent-equal duplicate values, the second phase of
`ecommunity_uniq_sort`. -/
def dedupAdj : List (List Nat) → List (List Nat)
  | [] => []
  | [v] => [v]
  | v :: w :: ws => if v = w then dedupAdj (w :: ws) else v :: dedupAdj (w :: ws)

/-- Modelled from the spec: `ecommunity_uniq_sort` (declared in
`bgp_ecommunity.h`, body not in the available sources).  Sorts the value
array using the byte-wise comparator as total order, then removes
adjacent-equal duplicates under the same comparator. -/
def ecommunity_uniq_sort (l : List (List Nat)) : List (List Nat) :=
  dedupAdj (List.insertionSort (fun a b => val_lt b a = false) l)

/-- Modelled from the spec: `ecommunity_merge` (declared in
`bgp_ecommunity.h`, body not in the available sources).  Concatenates the
two value sequences, in order, with no deduplication; neither input is
mutated. -/
def ecommunity_merge (a b : List (List Nat)) : List (List Nat) := a ++ b

/-- Modelled from the spec: `ecommunity_match` (declared in
`bgp_ecommunity.h`, body not in the available sources).  Returns true iff
every value of the pattern attribute is present in the target attribute. -/
def ecommunity_match (pat tgt : List (List Nat)) : Bool :=
  pat.all (fun v => tgt.contains v)

/-- An entry of the process-wide intern table: canonical value content
(`struct ecommunity` byte content) plus its reference count. -/
structure InternEntry where
  content : List (List Nat)
  refcnt : Nat
deriving DecidableEq, Repr

/-- Index of the first intern-table entry whose byte content equals `c`
(full content comparison, as the spec requires — hash equality is only a
filter and is not modelled). -/
def findEntryIdx (c : List (List Nat)) : List InternEntry → Option Nat
  | [] => none
  | e :: es =>
      if e.content = c then some 0 else (findEntryIdx c es).map (· + 1)

/-- Increments the reference count of the entry at index `i`. -/
def bumpAt : Nat → List InternEntry → List InternEntry
  | _, [] => []
  | 0, e :: es => { e with refcnt := e.refcnt + 1 } :: es
  | n + 1, e :: es => e :: bumpAt n es

/-- Modelled from the spec: `ecommunity_intern` (declared in
`bgp_ecommunity.h`, body not in the available sources).  Looks up an entry
with byte content exactly equal to `c`; if found, increments its refcount
and returns its index (the shared instance, standing for the returned
pointer); otherwise inserts a new entry with refcount 1 and returns its
index. -/
def ecommunity_intern (c : List (List Nat)) (t : List InternEntry) :
    List InternEntry × Nat :=
  match findEntryIdx c t with
  | some i => (bumpAt i t, i)
  | none => (t ++ [⟨c, 1⟩], t.length)

/-- Modelled from the spec: `ecommunity_unintern` (declared in
`bgp_ecommunity.h`, body not in the available sources).  Decrements the
refcount of the entry with content `c`; if it reaches zero, removes the
entry from the table. -/
def ecommunity_unintern (c : List (List Nat)) : List InternEntry → List InternEntry
  | [] => []
  | e :: es =>
      if e.content = c then
        if e.refcnt ≤ 1 then es else { e with refcnt := e.refcnt - 1 } :: es
      else e :: ecommunity_unintern c es

/-- `n` successive `ecommunity_intern` calls of the same content. -/
def internN (n : Nat) (c : List (List Nat)) (t : List InternEntry) :
    List InternEntry :=
  match n with
  | 0 => t
  | n + 1 => (ecommunity_intern c (internN n c t)).1

/-- `n` successive `ecommunity_unintern` calls of the same content. -/
def uninternN (n : Nat) (c : List (List Nat)) (t : List InternEntry) :
    List InternEntry :=
  match n with
  | 0 => t
  | n + 1 => uninternN n c (ecommunity_unintern c t)

/-- Whether an entry with content `c` is present (reachable) in the table. -/
def present (c : List (List Nat)) (t : List InternEntry) : Bool :=
  t.any (fun e => e.content = c)

/-- The number of live entries of the intern table (entries holding a
positive reference count). -/
def liveEntryCount (t : List InternEntry) : Nat :=
  t.countP (fun e => decide (0 < e.refcnt))

/-- Builds an AS-form 8-byte value (type 0x00): 2-byte AS big-endian,
4-byte discriminator big-endian, as laid out by `encode_route_target_as`
but for either sub-type. -/
def mkASVal (sub a n : Nat) : List Nat :=
  [ECOMMUNITY_ENCODE_AS, sub, a / 256 % 256, a % 256,
   n / 16777216 % 256, n / 65536 % 256, n / 256 % 256, n % 256]

/-- Builds an AS4-form 8-byte value (type 0x02): 4-byte AS big-endian,
2-byte discriminator big-endian, as laid out by `encode_route_target_as4`
but for either sub-type. -/
def mkAS4Val (sub a n : Nat) : List Nat :=
  [ECOMMUNITY_ENCODE_AS4, sub,
   a / 16777216 % 256, a / 65536 % 256, a / 256 % 256, a % 256,
   n / 256 % 256, n % 256]

/-- Builds an IP-form 8-byte value (type 0x01): 4 address octets, 2-byte
discriminator big-endian, as laid out by `encode_route_target_ip` but for
either sub-type. -/
def mkIPVal (sub a b c d n : Nat) : List Nat :=
  [ECOMMUNITY_ENCODE_IP, sub, a % 256, b % 256, c % 256, d % 256,
   n / 256 % 256, n % 256]

/-- Lower-case hexadecimal digit character. -/
def hexDigit (n : Nat) : Char :=
  if n < 10 then Char.ofNat (48 + n) else Char.ofNat (87 + n % 16)

/-- Two-digit lower-case hexadecimal rendering of a byte. -/
def byteHex (b : Nat) : String :=
  String.mk [hexDigit (b / 16 % 16), hexDigit (b % 16)]

/-- Renders one 8-byte value as an operator-facing token: keyword `rt` or
`soo` per sub-type, then the AS:nn, AS4:nn or IP:nn literal per
encoding-type; unknown (type, subtype) combinations render as a raw
hexadecimal fallback rather than failing. -/
def renderVal (v : List Nat) : String :=
  match v with
  | [t, s, b2, b3, b4, b5, b6, b7] =>
      if (s = ECOMMUNITY_ROUTE_TARGET ∨ s = ECOMMUNITY_SITE_ORIGIN) ∧
          (t = ECOMMUNITY_ENCODE_AS ∨ t = ECOMMUNITY_ENCODE_IP ∨
            t = ECOMMUNITY_ENCODE_AS4) then
        let key := if s = ECOMMUNITY_ROUTE_TARGET then "rt " else "soo "
        if t = ECOMMUNITY_ENCODE_AS then
          key ++ Nat.repr (b2 * 256 + b3) ++ ":" ++
            Nat.repr (((b4 * 256 + b5) * 256 + b6) * 256 + b7)
        else if t = ECOMMUNITY_ENCODE_IP then
          key ++ Nat.repr b2 ++ "." ++ Nat.repr b3 ++ "." ++ Nat.repr b4 ++
            "." ++ Nat.repr b5 ++ ":" ++ Nat.repr (b6 * 256 + b7)
        else
          key ++ Nat.repr (((b2 * 256 + b3) * 256 + b4) * 256 + b5) ++ ":" ++
            Nat.repr (b6 * 256 + b7)
      else
        String.join (v.map byteHex)
  | _ => String.join (v.map byteHex)

/-- Modelled from the spec: `ecommunity_ecom2str` (declared in
`bgp_ecommunity.h`, body not in the available sources).  Renders each value
as a textual token and joins them with spaces.  The spec pins down the
concrete text only for the `ROUTE_MAP` convention (command syntax suitable
for re-entry, e.g. "rt 100:10"); this model renders every format with that
convention. -/
def ecommunity_ecom2str (l : List (List Nat)) (fmt : Nat) : String :=
  String.intercalate " " (l.map renderVal)

/-- Consumes leading decimal digits, accumulating their value. -/
def readNatAux (acc : Nat) : List Char → Nat × List Char
  | [] => (acc, [])
  | c :: cs =>
      if c.isDigit then readNatAux (acc * 10 + (c.toNat - 48)) cs
      else (acc, c :: cs)

/-- Reads a decimal number (at least one digit) from the input. -/
def readNat : List Char → Option (Nat × List Char)
  | [] => none
  | c :: cs =>
      if c.isDigit then some (readNatAux (c.toNat - 48) cs) else none

/-- Skips leading space characters. -/
def skipSpaces : List Char → List Char
  | [] => []
  | c :: cs => if c = Char.ofNat 32 then skipSpaces cs else c :: cs

/-- Recognizes the token keywords `rt` (route-target) and `soo`
(site-origin) and yields the corresponding sub-type octet. -/
def parseKeyword : List Char → Option (Nat × List Char)
  | 'r' :: 't' :: cs => some (ECOMMUNITY_ROUTE_TARGET, cs)
  | 's' :: 'o' :: 'o' :: cs => some (ECOMMUNITY_SITE_ORIGIN, cs)
  | _ => none

/-- Reads an AS:nn, AS4:nn or IP:nn literal, auto-detected by shape: a
dotted-quad prefix selects the IP form, a bare integer pair the AS form,
and a first integer exceeding the 2-byte AS range the AS4 form. -/
def parseLiteral (sub : Nat) (cs : List Char) : Option (List Nat × List Char) :=
  match readNat cs with
  | none => none
  | some (a, rest) =>
      match rest with
      | [] => none
      | c :: rest2 =>
          if c = ':' then
            match readNat rest2 with
            | none => none
            | some (n, rest3) =>
                if a ≤ 65535 then some (mkASVal sub a n, rest3)
                else some (mkAS4Val sub a n, rest3)
          else if c = '.' then
            match readNat rest2 with
            | none => none
            | some (b, r3) =>
                match r3 with
                | '.' :: r4 =>
                    match readNat r4 with
                    | none => none
                    | some (c3, r5) =>
                        match r5 with
                        | '.' :: r6 =>
                            match readNat r6 with
                            | none => none
                            | some (d, r7) =>
                                match r7 with
                                | ':' :: r8 =>
                                    match readNat r8 with
                                    | none => none
                                    | some (n, r9) =>
                                        some (mkIPVal sub a b c3 d n, r9)
                                | _ => none
                        | _ => none
                | _ => none
          else none

/-- One token per iteration: keyword, then literal; failure of any token
aborts the whole parse with no partial attribute.  `fuel` bounds the number
of tokens and is chosen larger than the input length. -/
def str2comAux : Nat → List Char → List (List Nat) → Option (List (List Nat))
  | fuel, cs, acc =>
      match skipSpaces cs with
      | [] => some acc
      | cs' =>
          match fuel with
          | 0 => none
          | fuel + 1 =>
              match parseKeyword cs' with
              | none => none
              | some (sub, rest) =>
                  match parseLiteral sub (skipSpaces rest) with
                  | none => none
                  | some (v, rest2) => str2comAux fuel rest2 (acc ++ [v])

/-- Modelled from the spec: `ecommunity_str2com` (declared in
`bgp_ecommunity.h`, body not in the available sources).  Parses an
operator-facing string of `rt`/`soo` tokens into an attribute; any token
failure aborts the whole parse (atomic). -/
def ecommunity_str2com (s : String) : Option (List (List Nat)) :=
  str2comAux (s.length + 1) s.toList []

end Ecommunity

namespace Ecommunity

theorem chunk8_length_join (bytes : List Nat) (h : bytes.length % 8 = 0) :
    (chunk8 bytes).length = bytes.length / 8 ∧ (chunk8 bytes).flatten = bytes := by
  induction bytes using chunk8.induct with
  | case1 b0 b1 b2 b3 b4 b5 b6 b7 rest ih =>
      simp only [List.length_cons] at h
      have h' : rest.length % 8 = 0 := by omega
      obtain ⟨hl, hj⟩ := ih h'
      rw [chunk8]
      constructor
      · simp only [List.length_cons, hl]
        omega
      · simp [hj]
  | case2 l hl =>
      match l, hl with
      | [], _ => simp [chunk8]
      | [b0], _ => simp at h
      | [b0, b1], _ => simp at h
      | [b0, b1, b2], _ => simp at h
      | [b0, b1, b2, b3], _ => simp at h
      | [b0, b1, b2, b3, b4], _ => simp at h
      | [b0, b1, b2, b3, b4, b5], _ => simp at h
      | [b0, b1, b2, b3, b4, b5, b6], _ => simp at h
      | b0 :: b1 :: b2 :: b3 :: b4 :: b5 :: b6 :: b7 :: rest, hcon =>
          exact (hcon b0 b1 b2 b3 b4 b5 b6 b7 rest rfl).elim

/-- C3: `ecommunity_parse` fails exactly when the byte length is not
divisible by 8; otherwise it succeeds with an attribute of `size = len / 8`
whose values appear in wire order (flattening the parsed values restores the
input buffer); in particular the empty buffer parses to an empty attribute. -/
theorem ecommunity_parse_length (bytes : List Nat) :
    (ecommunity_parse bytes = none ↔ bytes.length % 8 ≠ 0) ∧
    (bytes.length % 8 = 0 →
      ∃ l, ecommunity_parse bytes = some l ∧
        l.length = bytes.length / 8 ∧ l.flatten = bytes) ∧
    ecommunity_parse ([] : List Nat) = some [] := by
  refine ⟨?_, ?_, by decide⟩
  · unfold ecommunity_parse
    by_cases h : bytes.length % 8 = 0 <;> simp [h]
  · intro h
    obtain ⟨hl, hj⟩ := chunk8_length_join bytes h
    exact ⟨chunk8 bytes, by simp [ecommunity_parse, h], hl, hj⟩

/-- Closed-form instance of `ecommunity_parse_length`: a 16-byte buffer
parses to two values in wire order, and a 3-byte buffer is rejected. -/
theorem ecommunity_parse_length_witness :
    (∃ l, ecommunity_parse
        [0, 2, 0, 100, 0, 0, 0, 10, 1, 2, 10, 0, 0, 1, 0, 7] = some l ∧
        l.length = 16 / 8 ∧
        l.flatten = [0, 2, 0, 100, 0, 0, 0, 10, 1, 2, 10, 0, 0, 1, 0, 7]) ∧
    ecommunity_parse [0, 2, 0] = none :=
  ⟨(ecommunity_parse_length
      [0, 2, 0, 100, 0, 0, 0, 10, 1, 2, 10, 0, 0, 1, 0, 7]).2.1 (by decide),
   (ecommunity_parse_length [0, 2, 0]).1.mpr (by decide)⟩

/-- C8: `encode_route_target_as` writes exactly the 8 bytes: encoding type
AS (0x00), sub-type Route-Target (0x02), the low 16 bits of the AS number
big-endian (out-of-range AS silently truncated to the 2-byte field), and the
32-bit discriminator big-endian in bytes 4-7. -/
theorem encode_route_target_as_bytes (as val : Nat)
    (hval : val < 4294967296) :
    encode_route_target_as as val =
      [0x00, 0x02, as % 65536 / 256, as % 65536 % 256,
       val / 16777216, val / 65536 % 256, val / 256 % 256, val % 256] := by
  unfold encode_route_target_as ECOMMUNITY_ENCODE_AS ECOMMUNITY_ROUTE_TARGET
  simp only [List.cons.injEq, and_true, true_and]
  repeat' apply And.intro
  all_goals omega

/-- Closed-form instance of `encode_route_target_as_bytes` at AS 70000
(out of 2-byte range, truncated) and discriminator 10. -/
theorem encode_route_target_as_bytes_witness :
    encode_route_target_as 70000 10 =
      [0x00, 0x02, 70000 % 65536 / 256, 70000 % 65536 % 256,
       10 / 16777216, 10 / 65536 % 256, 10 / 256 % 256, 10 % 256] :=
  encode_route_target_as_bytes 70000 10 (by decide)

/-- C9: the AS4-form route-target encoder is injective on in-range inputs:
for `as < 2^32` and `val < 2^16` the pair is recovered exactly by reading
bytes 2-5 big-endian (the AS) and bytes 6-7 big-endian (the discriminator),
so distinct in-range pairs never encode to equal 8-byte values. -/
theorem encode_route_target_as4_injective
    (as1 val1 as2 val2 : Nat)
    (ha1 : as1 < 4294967296) (hv1 : val1 < 65536)
    (ha2 : as2 < 4294967296) (hv2 : val2 < 65536) :
    decode_route_target_as4 (encode_route_target_as4 as1 val1) = (as1, val1) ∧
    (encode_route_target_as4 as1 val1 = encode_route_target_as4 as2 val2 →
      as1 = as2 ∧ val1 = val2) := by
  constructor
  · unfold encode_route_target_as4 decode_route_target_as4
    simp only [Prod.mk.injEq]
    constructor <;> omega
  · intro h
    unfold encode_route_target_as4 ECOMMUNITY_ENCODE_AS4 ECOMMUNITY_ROUTE_TARGET at h
    simp only [List.cons.injEq, and_true, true_and] at h
    constructor <;> omega

/-- Closed-form instance of `encode_route_target_as4_injective` at
(as, val) = (70000, 17). -/
theorem encode_route_target_as4_injective_witness :
    decode_route_target_as4 (encode_route_target_as4 70000 17) = (70000, 17) ∧
    (encode_route_target_as4 70000 17 = encode_route_target_as4 70000 17 →
      70000 = 70000 ∧ 17 = 17) :=
  encode_route_target_as4_injective 70000 17 70000 17
    (by decide) (by decide) (by decide) (by decide)

theorem val_lt_irrefl (a : List Nat) : val_lt a a = false := by
  simpa [val_lt] using irrefl a

theorem val_lt_asymm {a b : List Nat} (h : val_lt a b = true) :
    val_lt b a = false := by
  simp only [val_lt, decide_eq_true_eq] at h
  simpa [val_lt] using asymm h

theorem val_lt_trans {a b c : List Nat} (hab : val_lt a b = true)
    (hbc : val_lt b c = true) : val_lt a c = true := by
  simp only [val_lt, decide_eq_true_eq] at hab hbc ⊢
  exact IsTrans.trans a b c hab hbc

theorem val_lt_connex {a b : List Nat} (hab : val_lt a b = false)
    (hba : val_lt b a = false) : a = b := by
  simp only [val_lt, decide_eq_false_iff_not] at hab hba
  have h := @trichotomous (List Nat) (List.Lex (· < ·)) _ a b
  rcases h with h | h | h
  · exact absurd h hab
  · exact h
  · exact absurd h hba

instance valLeIsTotal : IsTotal (List Nat) (fun a b => val_lt b a = false) := by
  constructor
  intro a b
  by_cases h : val_lt b a = false
  · exact Or.inl h
  · exact Or.inr (val_lt_asymm (Bool.of_not_eq_false h))

instance valLeIsTrans : IsTrans (List Nat) (fun a b => val_lt b a = false) := by
  constructor
  intro a b c hab hbc
  simp only at hab hbc ⊢
  by_cases hca : val_lt c a = false
  · exact hca
  · exfalso
    have hca' : val_lt c a = true := Bool.of_not_eq_false hca
    by_cases h1 : val_lt a b = false
    · have hab' : a = b := val_lt_connex h1 hab
      subst hab'
      rw [hca'] at hbc
      exact absurd hbc (by simp)
    · have h1' : val_lt a b = true := Bool.of_not_eq_false h1
      by_cases h2 : val_lt b c = false
      · have hbc' : b = c := val_lt_connex h2 hbc
        subst hbc'
        rw [hca'] at hab
        exact absurd hab (by simp)
      · have h2' : val_lt b c = true := Bool.of_not_eq_false h2
        have hac : val_lt a c = true := val_lt_trans h1' h2'
        rw [val_lt_asymm hac] at hca'
        exact absurd hca' (by simp)

instance valLtIsTrans : IsTrans (List Nat) (fun a b => val_lt a b = true) :=
  ⟨fun _ _ _ hab hbc => val_lt_trans hab hbc⟩

theorem dedupAdj_cons (w : List Nat) (ws : List (List Nat)) :
    ∃ t, dedupAdj (w :: ws) = w :: t := by
  induction ws generalizing w with
  | nil => exact ⟨[], rfl⟩
  | cons u us ih =>
      by_cases h : w = u
      · subst h
        obtain ⟨t, ht⟩ := ih w
        exact ⟨t, by simp [dedupAdj, ht]⟩
      · exact ⟨dedupAdj (u :: us), by simp [dedupAdj, h]⟩

theorem mem_dedupAdj (l : List (List Nat)) (m : List Nat) :
    m ∈ dedupAdj l ↔ m ∈ l := by
  induction l using dedupAdj.induct with
  | case1 => simp [dedupAdj]
  | case2 v => simp [dedupAdj]
  | case3 w ws ih =>
      rw [dedupAdj, if_pos rfl, ih]
      simp
  | case4 v w ws h ih =>
      rw [dedupAdj, if_neg h]
      simp only [List.mem_cons, ih]

theorem chain'_lt_dedupAdj (l : List (List Nat)) :
    List.Chain' (fun a b => val_lt b a = false) l →
    List.Chain' (fun a b => val_lt a b = true) (dedupAdj l) := by
  induction l using dedupAdj.induct with
  | case1 => intro _; simp [dedupAdj]
  | case2 v => intro _; simp [dedupAdj]
  | case3 w ws ih =>
      intro h
      rw [dedupAdj, if_pos rfl]
      exact ih h.tail
  | case4 v w ws hvw ih =>
      intro h
      rw [List.chain'_cons] at h
      obtain ⟨hle, htl⟩ := h
      rw [dedupAdj, if_neg hvw]
      obtain ⟨t, ht⟩ := dedupAdj_cons w ws
      have hlt : val_lt v w = true := by
        by_cases hvw' : val_lt v w = false
        · exact absurd (val_lt_connex hvw' hle) hvw
        · exact Bool.of_not_eq_false hvw'
      rw [ht, List.chain'_cons]
      exact ⟨hlt, ht ▸ ih htl⟩

theorem dedupAdj_of_chain'_lt (l : List (List Nat)) :
    List.Chain' (fun a b => val_lt a b = true) l → dedupAdj l = l := by
  induction l using dedupAdj.induct with
  | case1 => intro _; rfl
  | case2 v => intro _; rfl
  | case3 w ws ih =>
      intro h
      rw [List.chain'_cons] at h
      rw [val_lt_irrefl] at h
      exact absurd h.1 (by simp)
  | case4 v w ws hvw ih =>
      intro h
      rw [List.chain'_cons] at h
      rw [dedupAdj, if_neg hvw, ih h.2]

/-- C4: the wire bytes 00 02 00 64 00 00 00 0A parse to the AS 100:10
route-target value, which renders as the text "rt 100:10" in `ROUTE_MAP`
format, and parsing that text back yields exactly the same 8 bytes. -/
theorem ecommunity_text_roundtrip :
    ecommunity_parse [0x00, 0x02, 0x00, 0x64, 0x00, 0x00, 0x00, 0x0A] =
      some [[0x00, 0x02, 0x00, 0x64, 0x00, 0x00, 0x00, 0x0A]] ∧
    ecommunity_ecom2str [[0x00, 0x02, 0x00, 0x64, 0x00, 0x00, 0x00, 0x0A]]
      ECOMMUNITY_FORMAT_ROUTE_MAP = "rt 100:10" ∧
    ecommunity_str2com "rt 100:10" =
      some [[0x00, 0x02, 0x00, 0x64, 0x00, 0x00, 0x00, 0x0A]] :=
  ⟨rfl, rfl, rfl⟩

/-- C5: the value sequence of `ecommunity_uniq_sort a` is strictly
increasing under the unsigned byte-wise lexicographic comparator (hence
sorted with no duplicate entries), and its set of values equals the set of
values of `a`. -/
theorem ecommunity_uniq_sort_canonical (l : List (List Nat)) :
    IsCanonical (ecommunity_uniq_sort l) ∧
    (ecommunity_uniq_sort l).Nodup ∧
    ∀ m, m ∈ ecommunity_uniq_sort l ↔ m ∈ l := by
  have hsorted : List.Chain' (fun a b => val_lt b a = false)
      (List.insertionSort (fun a b => val_lt b a = false) l) :=
    List.Pairwise.chain' (List.sorted_insertionSort _ l)
  have hcanon : IsCanonical (ecommunity_uniq_sort l) :=
    chain'_lt_dedupAdj _ hsorted
  refine ⟨hcanon, ?_, ?_⟩
  · have hp : List.Pairwise (fun a b => val_lt a b = true)
        (ecommunity_uniq_sort l) := List.chain'_iff_pairwise.mp hcanon
    exact hp.imp fun hab he => by
      rw [he, val_lt_irrefl] at hab
      simp at hab
  · intro m
    unfold ecommunity_uniq_sort
    rw [mem_dedupAdj, List.mem_insertionSort]

/-- C6: canonicalization is idempotent —
`ecommunity_uniq_sort (ecommunity_uniq_sort a) = ecommunity_uniq_sort a` —
and canonicalizing an already-canonical attribute leaves it unchanged. -/
theorem ecommunity_uniq_sort_idempotent (l : List (List Nat)) :
    ecommunity_uniq_sort (ecommunity_uniq_sort l) = ecommunity_uniq_sort l ∧
    (IsCanonical l → ecommunity_uniq_sort l = l) := by
  have key : ∀ m : List (List Nat), IsCanonical m → ecommunity_uniq_sort m = m := by
    intro m hm
    have hp : List.Pairwise (fun a b => val_lt a b = true) m :=
      List.chain'_iff_pairwise.mp hm
    have hle : List.Sorted (fun a b : List Nat => val_lt b a = false) m :=
      hp.imp fun hab => val_lt_asymm hab
    unfold ecommunity_uniq_sort
    rw [List.Sorted.insertionSort_eq hle]
    exact dedupAdj_of_chain'_lt m hm
  exact ⟨key _ (ecommunity_uniq_sort_canonical l).1, key l⟩

/-- Closed-form instance of `ecommunity_uniq_sort_idempotent`: canonicalizing
the already-canonical two-value attribute leaves it unchanged. -/
theorem ecommunity_uniq_sort_idempotent_witness :
    ecommunity_uniq_sort [[0, 2, 0, 1, 0, 0, 0, 1], [0, 2, 0, 1, 0, 0, 0, 2]] =
      [[0, 2, 0, 1, 0, 0, 0, 1], [0, 2, 0, 1, 0, 0, 0, 2]] :=
  (ecommunity_uniq_sort_idempotent
    [[0, 2, 0, 1, 0, 0, 0, 1], [0, 2, 0, 1, 0, 0, 0, 2]]).2 (by
      unfold IsCanonical
      rw [List.chain'_cons]
      exact ⟨by decide, List.chain'_singleton _⟩)

/-- C7: the matcher, on canonical arguments, returns true exactly when every
pattern value occurs in the target; in particular
`ecommunity_match a (ecommunity_merge a b)` is true for canonical `a`, `b`. -/
theorem ecommunity_match_subset (p t b : List (List Nat))
    (hp : IsCanonical p) (ht : IsCanonical t) (hb : IsCanonical b) :
    (ecommunity_match p t = true ↔ ∀ v ∈ p, v ∈ t) ∧
    ecommunity_match p (ecommunity_merge p b) = true := by
  have hiff : ∀ q : List (List Nat),
      (ecommunity_match p q = true ↔ ∀ v ∈ p, v ∈ q) := by
    intro q
    unfold ecommunity_match
    simp [List.all_eq_true]
  refine ⟨hiff t, ?_⟩
  rw [hiff (ecommunity_merge p b)]
  intro v hv
  unfold ecommunity_merge
  exact List.mem_append_left b hv

/-- Closed-form instance of `ecommunity_match_subset` at concrete canonical
attributes: a pattern matches the merge of itself with another attribute. -/
theorem ecommunity_match_subset_witness :
    (ecommunity_match [[0, 2, 0, 1, 0, 0, 0, 1]] [[0, 2, 0, 1, 0, 0, 0, 1]] = true ↔
      ∀ v ∈ [[0, 2, 0, 1, 0, 0, 0, 1]], v ∈ [[0, 2, 0, 1, 0, 0, 0, 1]]) ∧
    ecommunity_match [[0, 2, 0, 1, 0, 0, 0, 1]]
      (ecommunity_merge [[0, 2, 0, 1, 0, 0, 0, 1]] [[0, 2, 0, 1, 0, 0, 0, 2]]) = true :=
  ecommunity_match_subset [[0, 2, 0, 1, 0, 0, 0, 1]] [[0, 2, 0, 1, 0, 0, 0, 1]]
    [[0, 2, 0, 1, 0, 0, 0, 2]]
    (by unfold IsCanonical; exact List.chain'_singleton _)
    (by unfold IsCanonical; exact List.chain'_singleton _)
    (by unfold IsCanonical; exact List.chain'_singleton _)

/-- C10: the three route-target encoders stamp distinct encoding-type values
into byte 0 (AS writes 0x00, IP writes 0x01, AS4 writes 0x02), each produces
a full 8-byte value, and consequently no output of one encoder ever equals
an output of a different encoder, for any inputs. -/
theorem encode_route_target_pairwise_distinct
    (as val ip0 ip1 ip2 ip3 val2 as4 val3 : Nat) :
    (encode_route_target_as as val).head? = some ECOMMUNITY_ENCODE_AS ∧
    (encode_route_target_ip ip0 ip1 ip2 ip3 val2).head? = some ECOMMUNITY_ENCODE_IP ∧
    (encode_route_target_as4 as4 val3).head? = some ECOMMUNITY_ENCODE_AS4 ∧
    (encode_route_target_as as val).length = 8 ∧
    (encode_route_target_ip ip0 ip1 ip2 ip3 val2).length = 8 ∧
    (encode_route_target_as4 as4 val3).length = 8 ∧
    encode_route_target_as as val ≠ encode_route_target_ip ip0 ip1 ip2 ip3 val2 ∧
    encode_route_target_as as val ≠ encode_route_target_as4 as4 val3 ∧
    encode_route_target_ip ip0 ip1 ip2 ip3 val2 ≠ encode_route_target_as4 as4 val3 := by
  unfold encode_route_target_as encode_route_target_ip encode_route_target_as4
  unfold ECOMMUNITY_ENCODE_AS ECOMMUNITY_ENCODE_IP ECOMMUNITY_ENCODE_AS4
    ECOMMUNITY_ROUTE_TARGET
  simp

theorem bumpAt_contents (i : Nat) (t : List InternEntry) :
    (bumpAt i t).map InternEntry.content = t.map InternEntry.content := by
  induction t generalizing i with
  | nil => cases i <;> rfl
  | cons e es ih =>
      cases i with
      | zero => rfl
      | succ n => simp [bumpAt, ih]

theorem bumpAt_length (i : Nat) (t : List InternEntry) :
    (bumpAt i t).length = t.length := by
  induction t generalizing i with
  | nil => cases i <;> rfl
  | cons e es ih =>
      cases i with
      | zero => rfl
      | succ n => simp [bumpAt, ih]

theorem mem_bumpAt (i : Nat) (t : List InternEntry) (e : InternEntry)
    (he : e ∈ bumpAt i t) :
    e ∈ t ∨ ∃ e', e' ∈ t ∧ e.refcnt = e'.refcnt + 1 := by
  induction t generalizing i with
  | nil => cases i <;> simp [bumpAt] at he
  | cons f fs ih =>
      cases i with
      | zero =>
          rw [bumpAt] at he
          rcases List.mem_cons.mp he with h | h
          · exact Or.inr ⟨f, List.mem_cons_self f fs, by rw [h]⟩
          · exact Or.inl (List.mem_cons_of_mem f h)
      | succ n =>
          rw [bumpAt] at he
          rcases List.mem_cons.mp he with h | h
          · exact Or.inl (h ▸ List.mem_cons_self f fs)
          · rcases ih n h with h' | ⟨e', he', hr⟩
            · exact Or.inl (List.mem_cons_of_mem f h')
            · exact Or.inr ⟨e', List.mem_cons_of_mem f he', hr⟩

theorem findEntryIdx_bumpAt (c : List (List Nat)) (i : Nat)
    (t : List InternEntry) :
    findEntryIdx c (bumpAt i t) = findEntryIdx c t := by
  induction t generalizing i with
  | nil => cases i <;> rfl
  | cons e es ih =>
      cases i with
      | zero => simp [bumpAt, findEntryIdx]
      | succ n => simp [bumpAt, findEntryIdx, ih]

theorem findEntryIdx_none_iff (c : List (List Nat)) (t : List InternEntry) :
    findEntryIdx c t = none ↔ c ∉ t.map InternEntry.content := by
  induction t with
  | nil => simp [findEntryIdx]
  | cons e es ih =>
      by_cases h : e.content = c
      · simp [findEntryIdx, h]
      · rw [findEntryIdx, if_neg h, Option.map_eq_none', ih]
        simp only [List.map_cons, List.mem_cons]
        constructor
        · intro hne hor
          rcases hor with h' | h'
          · exact h h'.symm
          · exact hne h'
        · intro hne h'
          exact hne (Or.inr h')

theorem findEntryIdx_append_none (c : List (List Nat)) (t : List InternEntry)
    (r : Nat) (h : findEntryIdx c t = none) :
    findEntryIdx c (t ++ [⟨c, r⟩]) = some t.length := by
  induction t with
  | nil => simp [findEntryIdx]
  | cons e es ih =>
      rw [findEntryIdx] at h
      by_cases he : e.content = c
      · simp [he] at h
      · rw [if_neg he, Option.map_eq_none'] at h
        simp [findEntryIdx, if_neg he, ih h]

theorem bumpAt_append_last (t : List InternEntry) (c : List (List Nat))
    (r : Nat) :
    bumpAt t.length (t ++ [⟨c, r⟩]) = t ++ [⟨c, r + 1⟩] := by
  induction t with
  | nil => rfl
  | cons e es ih => simp [bumpAt, ih]

theorem ecommunity_intern_wf (c : List (List Nat)) (t : List InternEntry)
    (hwf : ∀ e ∈ t, 0 < e.refcnt) :
    ∀ e ∈ (ecommunity_intern c t).1, 0 < e.refcnt := by
  intro e he
  unfold ecommunity_intern at he
  cases hfind : findEntryIdx c t with
  | some i =>
      rw [hfind] at he
      simp only at he
      rcases mem_bumpAt i t e he with h | ⟨e', he', hr⟩
      · exact hwf e h
      · omega
  | none =>
      rw [hfind] at he
      simp only at he
      rcases List.mem_append.mp he with h | h
      · exact hwf e h
      · simp at h
        rw [h]
        exact Nat.one_pos

theorem findEntryIdx_some_lt (c : List (List Nat)) (t : List InternEntry)
    (i : Nat) (h : findEntryIdx c t = some i) : i < t.length := by
  induction t generalizing i with
  | nil => simp [findEntryIdx] at h
  | cons e es ih =>
      rw [findEntryIdx] at h
      by_cases he : e.content = c
      · rw [if_pos he] at h
        injection h with h
        rw [← h]
        simp
      · rw [if_neg he] at h
        rcases Option.map_eq_some'.mp h with ⟨j, hj, hij⟩
        have := ih j hj
        simp only [List.length_cons]
        omega

theorem findEntryIdx_some_content (c : List (List Nat)) (t : List InternEntry)
    (i : Nat) (h : findEntryIdx c t = some i) :
    (t.map InternEntry.content)[i]? = some c := by
  induction t generalizing i with
  | nil => simp [findEntryIdx] at h
  | cons e es ih =>
      rw [findEntryIdx] at h
      by_cases he : e.content = c
      · rw [if_pos he] at h
        injection h with h
        rw [← h]
        simp [he]
      · rw [if_neg he] at h
        rcases Option.map_eq_some'.mp h with ⟨j, hj, hij⟩
        rw [← hij]
        simpa using ih j hj

theorem ecommunity_intern_handle_lt (c : List (List Nat))
    (t : List InternEntry) :
    (ecommunity_intern c t).2 < (ecommunity_intern c t).1.length := by
  unfold ecommunity_intern
  cases hfind : findEntryIdx c t with
  | some i =>
      simp only [bumpAt_length]
      exact findEntryIdx_some_lt c t i hfind
  | none =>
      simp

theorem ecommunity_intern_handle_content (c : List (List Nat))
    (t : List InternEntry) :
    ((ecommunity_intern c t).1.map InternEntry.content)[(ecommunity_intern c t).2]? =
      some c := by
  unfold ecommunity_intern
  cases hfind : findEntryIdx c t with
  | some i =>
      simp only [bumpAt_contents]
      exact findEntryIdx_some_content c t i hfind
  | none =>
      simp only [List.map_append, List.map_cons, List.map_nil]
      rw [show t.length = (t.map InternEntry.content).length by simp]
      exact List.getElem?_concat_length _ _

theorem ecommunity_intern_preserves_at (c : List (List Nat))
    (t : List InternEntry) (j : Nat) (hj : j < t.length) :
    ((ecommunity_intern c t).1.map InternEntry.content)[j]? =
      (t.map InternEntry.content)[j]? := by
  unfold ecommunity_intern
  cases hfind : findEntryIdx c t with
  | some i => simp only [bumpAt_contents]
  | none =>
      simp only [List.map_append]
      exact List.getElem?_append_left (by simpa using hj)

theorem ecommunity_intern_nodup (c : List (List Nat)) (t : List InternEntry)
    (hnd : (t.map InternEntry.content).Nodup) :
    ((ecommunity_intern c t).1.map InternEntry.content).Nodup := by
  unfold ecommunity_intern
  cases hfind : findEntryIdx c t with
  | some i =>
      simp only [bumpAt_contents]
      exact hnd
  | none =>
      simp only [List.map_append, List.map_cons, List.map_nil]
      rw [List.nodup_append]
      refine ⟨hnd, List.nodup_singleton c, ?_⟩
      have hc : c ∉ t.map InternEntry.content :=
        (findEntryIdx_none_iff c t).mp hfind
      simpa [List.disjoint_singleton] using hc

/-- C1: interning equal canonical content twice returns the same shared
instance (the same table index) without increasing the count of live
entries; interning preserves the table invariant that entry contents are
pairwise distinct (at most one shared instance per byte content); and the
handles of two successively interned instances are identical exactly when
their canonical byte sequences are equal. -/
theorem ecommunity_intern_identity (c1 c2 : List (List Nat))
    (t : List InternEntry)
    (hwf : ∀ e ∈ t, 0 < e.refcnt)
    (hnd : (t.map InternEntry.content).Nodup) :
    (ecommunity_intern c1 (ecommunity_intern c1 t).1).2 =
      (ecommunity_intern c1 t).2 ∧
    liveEntryCount (ecommunity_intern c1 (ecommunity_intern c1 t).1).1 =
      liveEntryCount (ecommunity_intern c1 t).1 ∧
    ((ecommunity_intern c1 t).1.map InternEntry.content).Nodup ∧
    ((ecommunity_intern c2 (ecommunity_intern c1 t).1).2 =
        (ecommunity_intern c1 t).2 ↔ c2 = c1) := by
  have hwf1 : ∀ e ∈ (ecommunity_intern c1 t).1, 0 < e.refcnt :=
    ecommunity_intern_wf c1 t hwf
  have hwf2 : ∀ e ∈ (ecommunity_intern c1 (ecommunity_intern c1 t).1).1,
      0 < e.refcnt :=
    ecommunity_intern_wf c1 _ hwf1
  have hlen : (ecommunity_intern c1 (ecommunity_intern c1 t).1).1.length =
      (ecommunity_intern c1 t).1.length ∧
      (ecommunity_intern c1 (ecommunity_intern c1 t).1).2 =
        (ecommunity_intern c1 t).2 := by
    cases hfind : findEntryIdx c1 t with
    | some i =>
        have h1 : ecommunity_intern c1 t = (bumpAt i t, i) := by
          unfold ecommunity_intern
          rw [hfind]
        have hfind2 : findEntryIdx c1 (bumpAt i t) = some i := by
          rw [findEntryIdx_bumpAt, hfind]
        have h2 : ecommunity_intern c1 (bumpAt i t) =
            (bumpAt i (bumpAt i t), i) := by
          unfold ecommunity_intern
          rw [hfind2]
        rw [h1, h2]
        simp [bumpAt_length]
    | none =>
        have h1 : ecommunity_intern c1 t = (t ++ [⟨c1, 1⟩], t.length) := by
          unfold ecommunity_intern
          rw [hfind]
        have hfind2 : findEntryIdx c1 (t ++ [⟨c1, 1⟩]) = some t.length :=
          findEntryIdx_append_none c1 t 1 hfind
        have h2 : ecommunity_intern c1 (t ++ [⟨c1, 1⟩]) =
            (bumpAt t.length (t ++ [⟨c1, 1⟩]), t.length) := by
          unfold ecommunity_intern
          rw [hfind2]
        rw [h1, h2]
        simp [bumpAt_length]
  have hcount : ∀ s : List InternEntry, (∀ e ∈ s, 0 < e.refcnt) →
      liveEntryCount s = s.length := by
    intro s hs
    unfold liveEntryCount
    rw [List.countP_eq_length]
    intro e he
    simpa using hs e he
  refine ⟨hlen.2, ?_, ecommunity_intern_nodup c1 t hnd, ?_, ?_⟩
  · rw [hcount _ hwf2, hcount _ hwf1, hlen.1]
  · intro h
    have e1 := ecommunity_intern_handle_content c1 t
    have hlt := ecommunity_intern_handle_lt c1 t
    have e2 := ecommunity_intern_handle_content c2 (ecommunity_intern c1 t).1
    have e3 := ecommunity_intern_preserves_at c2 (ecommunity_intern c1 t).1
      (ecommunity_intern c1 t).2 hlt
    rw [h] at e2
    rw [e3, e1] at e2
    exact (Option.some.inj e2).symm
  · intro h
    rw [h]
    exact hlen.2

/-- Closed-form instance of `ecommunity_intern_identity` on a one-entry
well-formed table, with two distinct contents interned. -/
theorem ecommunity_intern_identity_witness :
    (ecommunity_intern [[0, 2, 0, 1, 0, 0, 0, 1]]
        (ecommunity_intern [[0, 2, 0, 1, 0, 0, 0, 1]]
          [⟨[[0, 2, 0, 1, 0, 0, 0, 2]], 1⟩]).1).2 =
      (ecommunity_intern [[0, 2, 0, 1, 0, 0, 0, 1]]
        [⟨[[0, 2, 0, 1, 0, 0, 0, 2]], 1⟩]).2 ∧
    liveEntryCount (ecommunity_intern [[0, 2, 0, 1, 0, 0, 0, 1]]
        (ecommunity_intern [[0, 2, 0, 1, 0, 0, 0, 1]]
          [⟨[[0, 2, 0, 1, 0, 0, 0, 2]], 1⟩]).1).1 =
      liveEntryCount (ecommunity_intern [[0, 2, 0, 1, 0, 0, 0, 1]]
        [⟨[[0, 2, 0, 1, 0, 0, 0, 2]], 1⟩]).1 ∧
    (((ecommunity_intern [[0, 2, 0, 1, 0, 0, 0, 1]]
        [⟨[[0, 2, 0, 1, 0, 0, 0, 2]], 1⟩]).1).map InternEntry.content).Nodup ∧
    ((ecommunity_intern [[0, 2, 0, 1, 0, 0, 0, 3]]
        (ecommunity_intern [[0, 2, 0, 1, 0, 0, 0, 1]]
          [⟨[[0, 2, 0, 1, 0, 0, 0, 2]], 1⟩]).1).2 =
      (ecommunity_intern [[0, 2, 0, 1, 0, 0, 0, 1]]
        [⟨[[0, 2, 0, 1, 0, 0, 0, 2]], 1⟩]).2 ↔
      [[0, 2, 0, 1, 0, 0, 0, 3]] = [[0, 2, 0, 1, 0, 0, 0, 1]]) :=
  ecommunity_intern_identity [[0, 2, 0, 1, 0, 0, 0, 1]] [[0, 2, 0, 1, 0, 0, 0, 3]]
    [⟨[[0, 2, 0, 1, 0, 0, 0, 2]], 1⟩] (by decide) (by decide)

theorem internN_absent (c : List (List Nat)) (t : List InternEntry)
    (hc : c ∉ t.map InternEntry.content) :
    ∀ n, 1 ≤ n → internN n c t = t ++ [⟨c, n⟩] := by
  have hfind : findEntryIdx c t = none := (findEntryIdx_none_iff c t).mpr hc
  intro n hn
  induction n with
  | zero => omega
  | succ n ih =>
      cases n with
      | zero =>
          show (ecommunity_intern c (internN 0 c t)).1 = t ++ [⟨c, 1⟩]
          unfold internN ecommunity_intern
          rw [hfind]
      | succ m =>
          show (ecommunity_intern c (internN (m + 1) c t)).1 = _
          rw [ih (by omega)]
          unfold ecommunity_intern
          rw [findEntryIdx_append_none c t (m + 1) hfind]
          simp only
          rw [bumpAt_append_last]

theorem unintern_append (c : List (List Nat)) (t : List InternEntry)
    (k : Nat) (hc : c ∉ t.map InternEntry.content) :
    ecommunity_unintern c (t ++ [⟨c, k⟩]) =
      if k ≤ 1 then t else t ++ [⟨c, k - 1⟩] := by
  induction t with
  | nil =>
      by_cases hk : k ≤ 1 <;> simp [ecommunity_unintern, hk]
  | cons e es ih =>
      simp only [List.map_cons, List.mem_cons] at hc
      push_neg at hc
      have he : e.content ≠ c := fun h => hc.1 h.symm
      rw [List.cons_append, ecommunity_unintern, if_neg he, ih hc.2]
      by_cases hk : k ≤ 1 <;> simp [hk]

theorem uninternN_append (c : List (List Nat)) (t : List InternEntry)
    (hc : c ∉ t.map InternEntry.content) :
    ∀ m n, m < n → uninternN m c (t ++ [⟨c, n⟩]) = t ++ [⟨c, n - m⟩] := by
  intro m
  induction m with
  | zero => intro n _; rw [uninternN, Nat.sub_zero]
  | succ m ih =>
      intro n hmn
      show uninternN m c (ecommunity_unintern c (t ++ [⟨c, n⟩])) = _
      rw [unintern_append c t n hc, if_neg (show ¬n ≤ 1 by omega)]
      rw [ih (n - 1) (by omega)]
      have harith : n - 1 - m = n - (m + 1) := by omega
      rw [harith]

theorem uninternN_all (c : List (List Nat)) (t : List InternEntry)
    (hc : c ∉ t.map InternEntry.content) :
    ∀ n, 1 ≤ n → uninternN n c (t ++ [⟨c, n⟩]) = t := by
  intro n hn
  induction n with
  | zero => omega
  | succ n ih =>
      show uninternN n c (ecommunity_unintern c (t ++ [⟨c, n + 1⟩])) = t
      cases n with
      | zero =>
          rw [unintern_append c t 1 hc, if_pos (show 1 ≤ 1 by omega)]
          rfl
      | succ m =>
          rw [unintern_append c t (m + 2) hc, if_neg (show ¬m + 2 ≤ 1 by omega)]
          exact ih (by omega)

theorem present_append_self (c : List (List Nat)) (t : List InternEntry)
    (k : Nat) : present c (t ++ [⟨c, k⟩]) = true := by
  simp [present, List.any_append]

theorem present_eq_false_of_not_mem (c : List (List Nat))
    (t : List InternEntry) (hc : c ∉ t.map InternEntry.content) :
    present c t = false := by
  rw [present, List.any_eq_false]
  intro e he
  simp only [decide_eq_true_eq]
  intro hec
  exact hc (List.mem_map.mpr ⟨e, he, hec⟩)

/-- C2: starting from a table not containing the content, `n ≥ 1` interns
followed by `n` uninterns leave the entry absent from the table, while `n`
interns followed by `n - 1` uninterns leave it present and reachable. -/
theorem ecommunity_refcount_correct (c : List (List Nat))
    (t : List InternEntry) (n : Nat) (hn : 1 ≤ n)
    (hc : c ∉ t.map InternEntry.content) :
    present c (uninternN n c (internN n c t)) = false ∧
    present c (uninternN (n - 1) c (internN n c t)) = true := by
  rw [internN_absent c t hc n hn]
  constructor
  · rw [uninternN_all c t hc n hn]
    exact present_eq_false_of_not_mem c t hc
  · rw [uninternN_append c t hc (n - 1) n (by omega)]
    exact present_append_self c t (n - (n - 1))

/-- Closed-form instance of `ecommunity_refcount_correct` with three interns
of one content into a one-entry table. -/
theorem ecommunity_refcount_correct_witness :
    present [[0, 2, 0, 1, 0, 0, 0, 1]]
      (uninternN 3 [[0, 2, 0, 1, 0, 0, 0, 1]]
        (internN 3 [[0, 2, 0, 1, 0, 0, 0, 1]]
          [⟨[[0, 2, 0, 1, 0, 0, 0, 2]], 1⟩])) = false ∧
    present [[0, 2, 0, 1, 0, 0, 0, 1]]
      (uninternN 2 [[0, 2, 0, 1, 0, 0, 0, 1]]
        (internN 3 [[0, 2, 0, 1, 0, 0, 0, 1]]
          [⟨[[0, 2, 0, 1, 0, 0, 0, 2]], 1⟩])) = true :=
  ecommunity_refcount_correct [[0, 2, 0, 1, 0, 0, 0, 1]]
    [⟨[[0, 2, 0, 1, 0, 0, 0, 2]], 1⟩] 3 (by decide) (by decide)

end Ecommunity
